import Mathlib

/-!
Verification development for the schema-resolution engine of `src/resolve.ts`
(`buildRef`, `stringifyName`, `resolve`, `resolveProperties`,
`appendMetaToResolvedType`, `appendJsDocTags`).

Host-language types are embedded as descriptor values (`Ty`, `ObjDesc`); the
OpenAPI schema fragments the engine produces are embedded as ordered
key/value objects (`FVal`).  The engine's recursion is made total with an
explicit fuel parameter: `Except.error RErr.outOfFuel` marks an execution
that exceeded the fuel bound, so a run that yields `outOfFuel` for every
bound models genuine divergence of the source program.
-/

namespace Toag

/-! ## Characters -/

def squote : Char := Char.ofNat 39

def dquote : Char := Char.ofNat 34

def lbrace : Char := Char.ofNat 123

def rbrace : Char := Char.ofNat 125

def lbrack : Char := Char.ofNat 91

def rbrack : Char := Char.ofNat 93

def lparen : Char := Char.ofNat 40

def rparen : Char := Char.ofNat 41

/-- JS `\s` character class, restricted to the whitespace characters that can
realistically occur in a type display name. -/
def jsWhitespace (c : Char) : Bool :=
  c == ' ' || c == Char.ofNat 9 || c == Char.ofNat 10 || c == Char.ofNat 13 ||
  c == Char.ofNat 11 || c == Char.ofNat 12 || c == Char.ofNat 0xa0 || c == Char.ofNat 0xfeff

/-- ASCII letter, the `[a-z]` class under the `i` flag. -/
def letter (c : Char) : Bool := c.isAlpha

/-- Append-of-image concatenation, used for the one-char-to-many rewrite stages. -/
def expand (f : Char → List Char) : List Char → List Char
  | [] => []
  | c :: rest => f c ++ expand f rest

/-! ## `stringifyName` (src/resolve.ts lines 9-35)

Each `.replace` stage of the source is one Lean function on `List Char`,
reproducing the semantics of the JS regex with the `g` flag (leftmost match,
resume after the match). -/

/-- Stage for `replace(/\'([^']*)\'/g, '$1')` and `replace(/\"([^"]*)\"/g, '$1')`:
drop paired quote characters, keeping the quoted text.  The second argument
buffers the text read since an unclosed opening quote. -/
def stripPairsGo (q : Char) : List Char → Option (List Char) → List Char
  | [], none => []
  | [], some buf => q :: buf.reverse
  | c :: rest, none =>
    if c = q then stripPairsGo q rest (some []) else c :: stripPairsGo q rest none
  | c :: rest, some buf =>
    if c = q then buf.reverse ++ stripPairsGo q rest none
    else stripPairsGo q rest (some (c :: buf))

def stripPairs (q : Char) (l : List Char) : List Char := stripPairsGo q l none

/-- Stage for `replace(/\[\]/g, '-Array')`. -/
def arrayMark : List Char → List Char
  | [] => []
  | [c] => [c]
  | c1 :: c2 :: rest =>
    if c1 = lbrack ∧ c2 = rbrack then "-Array".toList ++ arrayMark rest
    else c1 :: arrayMark (c2 :: rest)

/-- Scanner state for the two letter-run rewrite stages: outside any candidate
match, inside the first letter run, just past the separator, or inside the
second letter run. -/
inductive RunSt where
  | out : RunSt
  | run1 : List Char → RunSt
  | seek : List Char → RunSt
  | run2 : List Char → List Char → RunSt

/-- Stage for `replace(/([a-z]+):([a-z]+)/gi, '$1-$2')`: a colon between two
letter runs becomes a dash; scanning resumes after the second run. -/
def colonGo : List Char → RunSt → List Char
  | [], .out => []
  | [], .run1 r => r.reverse
  | [], .seek r => r.reverse ++ [':']
  | [], .run2 r1 r2 => r1.reverse ++ '-' :: r2.reverse
  | c :: rest, .out => if letter c then colonGo rest (.run1 [c]) else c :: colonGo rest .out
  | c :: rest, .run1 r =>
    if letter c then colonGo rest (.run1 (c :: r))
    else if c = ':' then colonGo rest (.seek r)
    else r.reverse ++ c :: colonGo rest .out
  | c :: rest, .seek r =>
    if letter c then colonGo rest (.run2 r [c])
    else r.reverse ++ ':' :: c :: colonGo rest .out
  | c :: rest, .run2 r1 r2 =>
    if letter c then colonGo rest (.run2 r1 (c :: r2))
    else r1.reverse ++ '-' :: r2.reverse ++ c :: colonGo rest .out

/-- Stage for `replace(/([a-z]+)\[([a-z]+)\]/gi, '$1-at-$2')`: a bracketed
letter run directly after a letter run is rewritten to `-at-`; on a failed
candidate the scan re-enters at the second run, as the JS engine does. -/
def brGo : List Char → RunSt → List Char
  | [], .out => []
  | [], .run1 r => r.reverse
  | [], .seek r => r.reverse ++ [lbrack]
  | [], .run2 r1 r2 => r1.reverse ++ lbrack :: r2.reverse
  | c :: rest, .out => if letter c then brGo rest (.run1 [c]) else c :: brGo rest .out
  | c :: rest, .run1 r =>
    if letter c then brGo rest (.run1 (c :: r))
    else if c = lbrack then brGo rest (.seek r)
    else r.reverse ++ c :: brGo rest .out
  | c :: rest, .seek r =>
    if letter c then brGo rest (.run2 r [c])
    else r.reverse ++ lbrack :: c :: brGo rest .out
  | c :: rest, .run2 r1 r2 =>
    if letter c then brGo rest (.run2 r1 (c :: r2))
    else if c = rbrack then r1.reverse ++ "-at-".toList ++ r2.reverse ++ brGo rest .out
    else if c = lbrack then r1.reverse ++ lbrack :: brGo rest (.seek r2)
    else r1.reverse ++ lbrack :: r2.reverse ++ c :: brGo rest .out

/-- Leading `Promise<...>` unwrap of `stringifyName`: drop the 8-character
marker and the final character. -/
def stripPromise (l : List Char) : List Char :=
  if l.take 8 = "Promise<".toList then (l.drop 8).dropLast else l

/-- Split `l` as `pre ++ rparen :: dot :: post` at the last occurrence of the
two-character pattern, the backtracking target of the greedy `.+` in
`/import\(.+\)\./`. -/
def lastSplit : List Char → Option (List Char × List Char)
  | [] => none
  | c :: rest =>
    match lastSplit rest with
    | some (a, b) => some (c :: a, b)
    | none => if c = rparen ∧ rest.head? = some '.' then some ([], rest.tail) else none

/-- Stage for `replace(/import\(.+\)\./g, '')`; the fuel starts at the input
length, which a match never exhausts because every step strictly shrinks the
text.  Display names are taken newline-free, so `.` is modeled as any char. -/
def stripImportGo : Nat → List Char → List Char
  | _, [] => []
  | 0, l => l
  | n + 1, c :: rest =>
    if (c :: rest).take 7 = "import(".toList then
      match lastSplit ((c :: rest).drop 7) with
      | some (pre, post) => if pre = [] then c :: stripImportGo n rest else stripImportGo n post
      | none => c :: stripImportGo n rest
    else c :: stripImportGo n rest

def stripImport (l : List Char) : List Char := stripImportGo l.length l

/-- Characters `encodeURIComponent` leaves unescaped: ASCII alphanumerics and
`- _ . ! ~ * ' ( )`. -/
def unreservedChar (c : Char) : Bool :=
  c.isAlpha || c.isDigit || c == '-' || c == '_' || c == '.' || c == '!' ||
  c == Char.ofNat 126 || c == '*' || c == squote || c == lparen || c == rparen

/-- UTF-8 bytes of one scalar value. -/
def utf8Bytes (c : Char) : List Nat :=
  let n := c.toNat
  if n < 0x80 then [n]
  else if n < 0x800 then [0xc0 + n / 64, 0x80 + n % 64]
  else if n < 0x10000 then [0xe0 + n / 4096, 0x80 + n / 64 % 64, 0x80 + n % 64]
  else [0xf0 + n / 262144, 0x80 + n / 4096 % 64, 0x80 + n / 64 % 64, 0x80 + n % 64]

/-- Uppercase hexadecimal digit, as produced by `encodeURIComponent`. -/
def hexDigit (n : Nat) : Char :=
  if n < 10 then Char.ofNat (48 + n) else Char.ofNat (55 + n)

def encChar (c : Char) : List Char :=
  if unreservedChar c then [c]
  else (utf8Bytes c).foldr (fun b acc => '%' :: hexDigit (b / 16) :: hexDigit (b % 16) :: acc) []

def encodeURIComponentChars (l : List Char) : List Char := expand encChar l

/-- Composition of the sixteen `.replace` stages of `stringifyName`, in source
order, between the `Promise`/`import` strips and the final percent-encoding. -/
def chainStages (l : List Char) : List Char :=
  let l1 := l.map (fun c => if c = '<' ∨ c = '>' then '_' else c)
  let l2 := l1.filter (fun c => !jsWhitespace c)
  let l3 := l2.map (fun c => if c = ',' then '.' else c)
  let l4 := stripPairs squote l3
  let l5 := stripPairs dquote l4
  let l6 := expand (fun c => if c = '&' then "-and-".toList else [c]) l5
  let l7 := expand (fun c => if c = '|' then "-or-".toList else [c]) l6
  let l8 := arrayMark l7
  let l9 := l8.map (fun c => if c = lbrace ∨ c = rbrace then '_' else c)
  let l10 := colonGo l9 .out
  let l11 := expand (fun c => if c = ';' then "--".toList else [c]) l10
  let l12 := brGo l11 .out
  let l13 := l12.map (fun c =>
    if c = lbrace ∨ c = rbrace ∨ c = lbrack ∨ c = rbrack ∨ c = lparen ∨ c = rparen then '_' else c)
  let l14 := l13.map (fun c => if c = ':' then '-' else c)
  let l15 := expand (fun c => if c = '?' then "..".toList else [c]) l14
  l15.filter (fun c => !(c == squote || c == dquote))

/-- The name normalizer `stringifyName` of src/resolve.ts. -/
def stringifyName (rawName : String) : String :=
  String.mk (encodeURIComponentChars (chainStages (stripImport (stripPromise rawName.toList))))

/-- The reference builder `buildRef` of src/resolve.ts. -/
def buildRef (name : String) : String := "#/components/schemas/" ++ name

/-! ## JS numbers and `parseFloat` -/

/-- JS double results relevant to the engine: `NaN`, infinities, and exact
finite values (every decimal literal value is rational). -/
inductive JsNum where
  | nan : JsNum
  | inf : Bool → JsNum
  | num : Rat → JsNum
deriving DecidableEq

def digitsToNat (l : List Char) : Nat := l.foldl (fun a c => 10 * a + (c.toNat - 48)) 0

/-- JS `parseFloat`: a total function that parses the longest valid decimal
prefix and yields `NaN` when there is none — it never throws. -/
def jsParseFloat (s : String) : JsNum :=
  let l0 := s.toList.dropWhile jsWhitespace
  let signed : Bool × List Char :=
    match l0 with
    | c :: rest => if c = '-' then (true, rest) else if c = '+' then (false, rest) else (false, l0)
    | [] => (false, [])
  let neg := signed.1
  let l := signed.2
  if l.take 8 = "Infinity".toList then .inf neg
  else
    let intPart := l.takeWhile Char.isDigit
    let l1 := l.dropWhile Char.isDigit
    let fracSplit : List Char × List Char :=
      match l1 with
      | c :: rest =>
        if c = '.' then (rest.takeWhile Char.isDigit, rest.dropWhile Char.isDigit) else ([], l1)
      | [] => ([], [])
    let fracPart := fracSplit.1
    let l2 := fracSplit.2
    if intPart = [] ∧ fracPart = [] then .nan
    else
      let mant : Rat := (digitsToNat (intPart ++ fracPart) : Rat) / (10 : Rat) ^ fracPart.length
      let expo : Option (Bool × Nat) :=
        match l2 with
        | c :: rest =>
          if c = 'e' ∨ c = 'E' then
            let esigned : Bool × List Char :=
              match rest with
              | d :: rr => if d = '-' then (true, rr) else if d = '+' then (false, rr) else (false, rest)
              | [] => (false, [])
            let ds := esigned.2.takeWhile Char.isDigit
            if ds = [] then none else some (esigned.1, digitsToNat ds)
          else none
        | [] => none
      let q : Rat :=
        match expo with
        | none => mant
        | some (true, k) => mant / (10 : Rat) ^ k
        | some (false, k) => mant * (10 : Rat) ^ k
      .num (if neg then -q else q)

/-! ## Schema fragments

A fragment is a JS object value: an ordered list of key/value fields.
`jsUndefined` stands for the JS `undefined` value where the source can store it. -/

inductive FVal where
  | str : String → FVal
  | num : JsNum → FVal
  | bool : Bool → FVal
  | jsUndefined : FVal
  | obj : List (String × FVal) → FVal
  | arr : List FVal → FVal

abbrev Fields := List (String × FVal)

/-- The `components.schemas` map of the output document, the one piece of
mutable state of the engine. -/
abbrev Registry := List (String × FVal)

/-- JS property assignment `o[k] = v`: overwrite in place if the key exists
(a JS object holds each key once), else append. -/
def setKey : Fields → String → FVal → Fields
  | [], k, v => [(k, v)]
  | p :: rest, k, v => if p.1 = k then (k, v) :: rest else p :: setKey rest k v

/-- JS `Object.assign(target, src)`, key by key in source order. -/
def objAssign (target : Fields) (src : Fields) : Fields :=
  src.foldl (fun acc p => setKey acc p.1 p.2) target

/-- JS `delete o[k]`. -/
def removeKey (fields : Fields) (k : String) : Fields :=
  fields.filter (fun p => !(p.1 == k))

/-- The metadata merger `appendMetaToResolvedType` of src/resolve.ts: a
Reference cannot carry sibling facets, so it is first rewritten into
`allOf: [reference]` before the facets are merged on.  The source only ever
passes schema objects; any other value is returned unchanged. -/
def appendMetaToResolvedType (f : FVal) (metas : Fields) : FVal :=
  match f with
  | .obj fields =>
    match List.lookup "$ref" fields with
    | some r =>
      .obj (objAssign (removeKey fields "$ref") (("allOf", .arr [.obj [("$ref", r)]]) :: metas))
    | none => .obj (objAssign fields metas)
  | f => f

/-- One documentation tag, a name with optional text, as delivered by
`compilerSymbol.getJsDocTags()`. -/
structure JsDocTag where
  name : String
  text : Option String

/-- The tag applier `appendJsDocTags` of src/resolve.ts: recognized facet tags
with truthy text are merged onto the fragment; `minimum`/`maximum` text goes
through `parseFloat`, the rest is copied as a string. -/
def appendJsDocTags (tags : List JsDocTag) (f : FVal) : FVal :=
  tags.foldl (fun acc tag =>
    match tag.text with
    | some txt =>
      if tag.name ∈ ["format", "example", "description", "pattern", "minimum", "maximum"]
          ∧ txt ≠ "" then
        appendMetaToResolvedType acc
          [(tag.name,
            if tag.name = "minimum" ∨ tag.name = "maximum" then FVal.num (jsParseFloat txt)
            else FVal.str txt)]
      else acc
    | none => acc) f

/-! ## Type descriptors

`Ty` is the closed variant set the dispatch of `resolve` discriminates; each
constructor carries exactly the answers the source pulls out of the ts-morph
`Type` API on that branch.  Object-shaped types live in a separate
environment indexed by `Ty.obj`, so that self- and mutually-referential
declarations are expressible. -/

inductive LitVal where
  | s : String → LitVal
  | n : Rat → LitVal

inductive Ty where
  | promise : List Ty → Ty
  | nullable : Bool → Ty → Ty
  | arrayOf : Ty → Ty
  | boolean : Ty
  | unknown : Ty
  | tuple : List Ty → Ty
  | obj : Nat → Ty
  | inter : List Ty → Ty
  | union : Option String → List Ty → Ty
  | lit : Bool → LitVal → Ty
  | text : String → Ty

/-- One declared property: its name, declared type, the combined modifier
flags of its (value or first) declaration, the accessor flags of the property
symbol, the accessor flags of the first declaration's symbol when that symbol
exists, and the attached documentation tags. -/
structure PropDesc where
  name : String
  ty : Ty
  modifierFlags : Option Nat
  propGet : Bool
  propSet : Bool
  declSym : Option (Bool × Bool)
  jsDocTags : List JsDocTag

/-- One object-shaped type: symbol name, alias name of a `__type` type-literal
declaration when present, whether the first declaration is a mapped type, the
rendered type text, generic arguments, declared properties, and the value
types of the string/number index signatures. -/
structure ObjDesc where
  symbolName : String
  aliasName : Option String
  isMappedDecl : Bool
  textRepr : String
  typeArgs : List Ty
  props : List PropDesc
  stringIndex : Option Ty
  numberIndex : Option Ty

abbrev TyEnv := List ObjDesc

/-- The `retrieveTypeName` helper of src/resolve.ts: a `__type` symbol whose
type-literal declaration has an alias symbol reports the alias name. -/
def retrieveTypeName (d : ObjDesc) : String :=
  if d.symbolName = "__type" then
    match d.aliasName with
    | some a => a
    | none => "__type"
  else d.symbolName

/-- The final `typeName` of the object branch of `resolve` (src/resolve.ts
lines 101-111): the retrieved name, with the rendered type text substituted
for an anonymous mapped type. -/
def objTypeName (d : ObjDesc) : String :=
  let typeName0 := retrieveTypeName d
  if typeName0 = "__type" ∧ d.isMappedDecl then d.textRepr else typeName0

/-! ## Read-only classification (src/resolve.ts lines 186-191) -/

/-- `ts.ModifierFlags.Readonly`. -/
def tsModifierFlagsReadonly : Nat := 64

/-- JS `property.hasFlags(f) || firstDeclaration?.getSymbol()?.hasFlags(f)`
for the get-accessor flag: `none` models the `undefined` short-circuit. -/
def hasFlagsGet (p : PropDesc) : Option Bool :=
  if p.propGet then some true else p.declSym.map Prod.fst

/-- Same as `hasFlagsGet` for the set-accessor flag. -/
def hasFlagsSet (p : PropDesc) : Option Bool :=
  if p.propSet then some true else p.declSym.map Prod.snd

/-- The read-only test of `resolveProperties`: the combined modifier flags are
strictly equal to `ts.ModifierFlags.Readonly`, or the accessor test passes
(`=== true` / `=== false`), or a `readonly` documentation tag is present. -/
def isReadonly (p : PropDesc) : Bool :=
  p.modifierFlags == some tsModifierFlagsReadonly ||
  (hasFlagsGet p == some true && hasFlagsSet p == some false) ||
  p.jsDocTags.any (fun t => t.name == "readonly")

/-! ## The resolution engine -/

/-- Failures of a run: exhausted fuel, or a thrown JS error. -/
inductive RErr where
  | outOfFuel : RErr
  | crash : String → RErr
deriving DecidableEq

abbrev Res (α : Type) := Except RErr α

def litFVal : LitVal → FVal
  | .s s => .str s
  | .n q => .num (.num q)

/-- For `resolvedTypes[0].type`: reading the `type` field of a schema object,
`undefined` when absent. -/
def fragTypeField (f : FVal) : FVal :=
  match f with
  | .obj fs => (List.lookup "type" fs).getD .jsUndefined
  | _ => .jsUndefined

/-- The `resolvedTypes.map(type => type.enum![0])` step of the enum branch:
a missing `enum` field is a thrown TypeError, an empty list yields
`undefined`. -/
def enumHeads : List FVal → Res (List FVal)
  | [] => pure []
  | f :: rest =>
    match f with
    | .obj fs =>
      match List.lookup "enum" fs with
      | some (.arr (v :: _)) => do
        let vs ← enumHeads rest
        pure (v :: vs)
      | some (.arr []) => do
        let vs ← enumHeads rest
        pure (.jsUndefined :: vs)
      | some _ => .error (.crash "enum field is not an array")
      | none => .error (.crash "cannot read 0 of undefined")
    | _ => .error (.crash "cannot read enum of a non-object")

mutual

/-- The resolver `resolve` of src/resolve.ts with its default nullable
behavior (`resolveNullableType`): dispatch in source order over the shape of
`t`, threading the `components.schemas` registry.  Fuel decreases on every
recursive call; `outOfFuel` for every fuel bound models divergence of the
source. -/
def resolve (fuel : Nat) (env : TyEnv) (t : Ty) (reg : Registry) : Res (FVal × Registry) :=
  match fuel with
  | 0 => .error .outOfFuel
  | n + 1 =>
    match t with
    | .promise args =>
      match args with
      | a :: _ => resolve n env a reg
      | [] => .error (.crash "cannot resolve an undefined type argument")
    | .nullable _ inner => do
      let (f, reg1) ← resolve n env inner reg
      pure (appendMetaToResolvedType f [("nullable", .bool true)], reg1)
    | .arrayOf elem => do
      let (f, reg1) ← resolve n env elem reg
      pure (.obj [("type", .str "array"), ("items", f)], reg1)
    | .boolean => pure (.obj [("type", .str "boolean")], reg)
    | .unknown => pure (.obj [("type", .str "object")], reg)
    | .tuple elems => do
      let (fs, reg1) ← resolveList n env elems reg
      pure (.obj [("type", .str "array"), ("items", .obj [("oneOf", .arr fs)])], reg1)
    | .obj id =>
      match env[id]? with
      | none => .error (.crash "missing type descriptor")
      | some d =>
        let typeName0 := retrieveTypeName d
        if typeName0 = "Date" then
          pure (.obj [("type", .str "string"), ("format", .str "date-time")], reg)
        else
          let typeName := objTypeName d
          if typeName = "__type" ∨ typeName = "__object" ∨ 0 < d.typeArgs.length then do
            let (props, reg1) ← resolveProperties n env d reg
            pure (.obj (("type", .str "object") :: props), reg1)
          else
            let refName := stringifyName typeName
            match List.lookup refName reg with
            | some _ => pure (.obj [("$ref", .str (buildRef refName))], reg)
            | none => do
              let (props, reg1) ← resolveProperties n env d reg
              pure (.obj [("$ref", .str (buildRef refName))],
                setKey reg1 refName (.obj (("type", .str "object") :: props)))
    | .inter members => do
      let (fs, reg1) ← resolveList n env members reg
      pure (.obj [("allOf", .arr fs)], reg1)
    | .union enumSym members => do
      let (values, reg1) ← resolveList n env members reg
      match enumSym with
      | some rawEnumName =>
        let enumName := stringifyName rawEnumName
        match List.lookup enumName reg1 with
        | some _ => pure (.obj [("$ref", .str (buildRef enumName))], reg1)
        | none => do
          let (resolvedTypes, reg2) ← resolveList n env members reg1
          let vals ← enumHeads resolvedTypes
          match resolvedTypes with
          | [] => .error (.crash "cannot read type of undefined")
          | f0 :: _ =>
            pure (.obj [("$ref", .str (buildRef enumName))],
              setKey reg2 enumName (.obj [("type", fragTypeField f0), ("enum", .arr vals)]))
      | none => pure (.obj [("oneOf", .arr values)], reg1)
    | .lit isNumber v =>
      pure (.obj [("type", .str (if isNumber then "number" else "string")),
        ("enum", .arr [litFVal v])], reg)
    | .text s =>
      if s = "void" then pure (.obj [("type", .str "object")], reg)
      else pure (.obj [("type", .str s)], reg)

/-- `members.map(type => resolve(type, spec))`, threading the registry left to
right. -/
def resolveList (fuel : Nat) (env : TyEnv) (ts : List Ty) (reg : Registry) :
    Res (List FVal × Registry) :=
  match fuel with
  | 0 => .error .outOfFuel
  | n + 1 =>
    match ts with
    | [] => pure ([], reg)
    | t :: rest => do
      let (f, reg1) ← resolve n env t reg
      let (fs, reg2) ← resolveList n env rest reg1
      pure (f :: fs, reg2)

/-- `resolve` as called from `resolveProperties`, with the overriding nullable
callback: an undefined member makes the property not required and resolves
the non-undefined remainder plainly; otherwise the behavior is the default
one.  The returned Bool is the `required` flag. -/
def resolvePropType (fuel : Nat) (env : TyEnv) (t : Ty) (reg : Registry) :
    Res (FVal × Bool × Registry) :=
  match fuel with
  | 0 => .error .outOfFuel
  | n + 1 =>
    match t with
    | .promise args =>
      match args with
      | a :: _ => do
        let (f, reg1) ← resolve n env a reg
        pure (f, true, reg1)
      | [] => .error (.crash "cannot resolve an undefined type argument")
    | .nullable isUndefined inner =>
      if isUndefined then do
        let (f, reg1) ← resolve n env inner reg
        pure (f, false, reg1)
      else do
        let (f, reg1) ← resolve n env inner reg
        pure (appendMetaToResolvedType f [("nullable", .bool true)], true, reg1)
    | t => do
      let (f, reg1) ← resolve n env t reg
      pure (f, true, reg1)

/-- The property fold of `resolveProperties`: resolve each property with the
overriding callback, mark read-only, apply documentation tags, and collect
the property map and the required names in declaration order. -/
def resolvePropsList (fuel : Nat) (env : TyEnv) (ps : List PropDesc) (reg : Registry) :
    Res (Fields × List String × Registry) :=
  match fuel with
  | 0 => .error .outOfFuel
  | n + 1 =>
    match ps with
    | [] => pure ([], [], reg)
    | p :: rest => do
      let (rt0, required, reg1) ← resolvePropType n env p.ty reg
      let rt1 :=
        if isReadonly p then appendMetaToResolvedType rt0 [("readOnly", .bool true)] else rt0
      let rt2 := appendJsDocTags p.jsDocTags rt1
      let (fs, reqs, reg2) ← resolvePropsList n env rest reg1
      pure ((p.name, rt2) :: fs, (if required then p.name :: reqs else reqs), reg2)

/-- The property extractor `resolveProperties` of src/resolve.ts: build the
property map; drop the `required` key when the list ended empty; with no
declared properties, fall back to `additionalProperties` from the string
index signature, else the number one. -/
def resolveProperties (fuel : Nat) (env : TyEnv) (d : ObjDesc) (reg : Registry) :
    Res (Fields × Registry) :=
  match fuel with
  | 0 => .error .outOfFuel
  | n + 1 => do
    let (propFields, reqs, reg1) ← resolvePropsList n env d.props reg
    let base : Fields :=
      ("properties", FVal.obj propFields) ::
        (if reqs = [] then [] else [("required", FVal.arr (reqs.map FVal.str))])
    if propFields.length = 0 then
      match d.stringIndex, d.numberIndex with
      | none, none => pure (base, reg1)
      | some t, _ => do
        let (f, reg2) ← resolve n env t reg1
        pure (base ++ [("additionalProperties", f)], reg2)
      | none, some t => do
        let (f, reg2) ← resolve n env t reg1
        pure (base ++ [("additionalProperties", f)], reg2)
    else pure (base, reg1)

end

/-! ## Registry lemmas -/

theorem lookup_setKey_self (r : Registry) (k : String) (v : FVal) :
    List.lookup k (setKey r k v) = some v := by
  induction r with
  | nil => simp [setKey, List.lookup]
  | cons p rest ih =>
    obtain ⟨k', v'⟩ := p
    by_cases h : k' = k
    · simp [setKey, h, List.lookup]
    · simp only [setKey, h, if_false, List.lookup]
      have : (k == k') = false := by
        simp [beq_iff_eq]
        exact fun hk => h hk.symm
      simp [this, ih]

/-- Keys of the registry are pairwise distinct (a JS object holds each key
once). -/
def keysNodup (r : Registry) : Prop := (r.map Prod.fst).Nodup

theorem setKey_keys_subset (r : Registry) (k : String) (v : FVal) :
    ∀ x ∈ (setKey r k v).map Prod.fst, x = k ∨ x ∈ r.map Prod.fst := by
  induction r with
  | nil => simp [setKey]
  | cons p rest ih =>
    by_cases h : p.1 = k
    · simp only [setKey, h, if_true, List.map_cons, List.mem_cons]
      intro x hx
      tauto
    · simp only [setKey, h, if_false, List.map_cons, List.mem_cons]
      intro x hx
      rcases hx with hx | hx
      · tauto
      · rcases ih x hx with hx | hx <;> tauto

theorem keysNodup_setKey (r : Registry) (k : String) (v : FVal) (h : keysNodup r) :
    keysNodup (setKey r k v) := by
  induction r with
  | nil => simp [keysNodup, setKey]
  | cons p rest ih =>
    by_cases hk : p.1 = k
    · simp only [keysNodup, setKey, hk, if_true, List.map_cons, List.nodup_cons] at h ⊢
      exact ⟨hk ▸ h.1, h.2⟩
    · simp only [keysNodup, setKey, hk, if_false, List.map_cons, List.nodup_cons] at h ⊢
      refine ⟨fun hmem => ?_, ih h.2⟩
      rcases setKey_keys_subset rest k v _ hmem with he | he
      · exact hk he
      · exact h.1 he

/-! ## Monad reduction lemmas for `Res` -/

theorem bindOk {α β : Type} (a : α) (f : α → Res β) : (Except.ok a >>= f) = f a := rfl

theorem bindError {α β : Type} (e : RErr) (f : α → Res β) :
    ((Except.error e : Res α) >>= f) = Except.error e := rfl

theorem pureRes {α : Type} (a : α) : (pure a : Res α) = Except.ok a := rfl

/-- Every successful run of the engine preserves key-uniqueness of the
registry: all insertions go through `setKey`. -/
theorem keysNodup_preserved (n : Nat) :
    (∀ env t reg out, resolve n env t reg = .ok out → keysNodup reg → keysNodup out.2) ∧
    (∀ env ts reg out, resolveList n env ts reg = .ok out → keysNodup reg → keysNodup out.2) ∧
    (∀ env t reg out, resolvePropType n env t reg = .ok out → keysNodup reg → keysNodup out.2.2) ∧
    (∀ env ps reg out, resolvePropsList n env ps reg = .ok out → keysNodup reg → keysNodup out.2.2) ∧
    (∀ env d reg out, resolveProperties n env d reg = .ok out → keysNodup reg → keysNodup out.2) := by
  induction n with
  | zero =>
    refine ⟨?_, ?_, ?_, ?_, ?_⟩ <;> intro env a reg out h hnd <;>
      simp [resolve, resolveList, resolvePropType, resolvePropsList, resolveProperties] at h
  | succ m ih =>
    obtain ⟨ihR, ihL, ihP, ihPL, ihProps⟩ := ih
    refine ⟨?_, ?_, ?_, ?_, ?_⟩
    · intro env t reg out h hnd
      cases t with
      | promise args =>
        cases args with
        | nil => simp [resolve] at h
        | cons a rest => exact ihR env a reg out h hnd
      | nullable u inner =>
        simp only [resolve] at h
        cases hres : resolve m env inner reg with
        | error e => rw [hres] at h; simp [bindError] at h
        | ok val =>
          obtain ⟨f, reg1⟩ := val
          rw [hres] at h
          simp only [bindOk, pureRes, Except.ok.injEq] at h
          subst h
          exact ihR env inner reg (f, reg1) hres hnd
      | arrayOf elem =>
        simp only [resolve] at h
        cases hres : resolve m env elem reg with
        | error e => rw [hres] at h; simp [bindError] at h
        | ok val =>
          obtain ⟨f, reg1⟩ := val
          rw [hres] at h
          simp only [bindOk, pureRes, Except.ok.injEq] at h
          subst h
          exact ihR env elem reg (f, reg1) hres hnd
      | boolean =>
        simp only [resolve, pureRes, Except.ok.injEq] at h
        subst h; exact hnd
      | unknown =>
        simp only [resolve, pureRes, Except.ok.injEq] at h
        subst h; exact hnd
      | tuple elems =>
        simp only [resolve] at h
        cases hres : resolveList m env elems reg with
        | error e => rw [hres] at h; simp [bindError] at h
        | ok val =>
          obtain ⟨fs, reg1⟩ := val
          rw [hres] at h
          simp only [bindOk, pureRes, Except.ok.injEq] at h
          subst h
          exact ihL env elems reg (fs, reg1) hres hnd
      | obj id =>
        simp only [resolve] at h
        cases henv : env[id]? with
        | none => rw [henv] at h; simp at h
        | some d =>
          rw [henv] at h
          by_cases hdate : retrieveTypeName d = "Date"
          · simp only [hdate, if_true, pureRes, Except.ok.injEq] at h
            subst h; exact hnd
          · simp only [hdate, if_false] at h
            by_cases hanon : objTypeName d = "__type" ∨ objTypeName d = "__object" ∨
                0 < d.typeArgs.length
            · simp only [if_pos hanon] at h
              cases hres : resolveProperties m env d reg with
              | error e => rw [hres] at h; simp [bindError] at h
              | ok val =>
                obtain ⟨props, reg1⟩ := val
                rw [hres] at h
                simp only [bindOk, pureRes, Except.ok.injEq] at h
                subst h
                exact ihProps env d reg (props, reg1) hres hnd
            · simp only [if_neg hanon] at h
              cases hlook : List.lookup (stringifyName (objTypeName d)) reg with
              | some e =>
                rw [hlook] at h
                simp only [pureRes, Except.ok.injEq] at h
                subst h; exact hnd
              | none =>
                rw [hlook] at h
                cases hres : resolveProperties m env d reg with
                | error e => rw [hres] at h; simp [bindError] at h
                | ok val =>
                  obtain ⟨props, reg1⟩ := val
                  rw [hres] at h
                  simp only [bindOk, pureRes, Except.ok.injEq] at h
                  subst h
                  exact keysNodup_setKey _ _ _ (ihProps env d reg (props, reg1) hres hnd)
      | inter members =>
        simp only [resolve] at h
        cases hres : resolveList m env members reg with
        | error e => rw [hres] at h; simp [bindError] at h
        | ok val =>
          obtain ⟨fs, reg1⟩ := val
          rw [hres] at h
          simp only [bindOk, pureRes, Except.ok.injEq] at h
          subst h
          exact ihL env members reg (fs, reg1) hres hnd
      | union enumSym members =>
        simp only [resolve] at h
        cases hres : resolveList m env members reg with
        | error e => rw [hres] at h; simp [bindError] at h
        | ok val =>
          obtain ⟨values, reg1⟩ := val
          rw [hres] at h
          simp only [bindOk] at h
          have hnd1 : keysNodup reg1 := ihL env members reg (values, reg1) hres hnd
          split at h
          · split at h
            · simp only [pureRes, Except.ok.injEq] at h
              subst h; exact hnd1
            · cases hres2 : resolveList m env members reg1 with
              | error e => rw [hres2] at h; simp [bindError] at h
              | ok val2 =>
                obtain ⟨resolvedTypes, reg2⟩ := val2
                rw [hres2] at h
                simp only [bindOk] at h
                have hnd2 : keysNodup reg2 := ihL env members reg1 (resolvedTypes, reg2) hres2 hnd1
                cases hheads : enumHeads resolvedTypes with
                | error e => rw [hheads] at h; simp [bindError] at h
                | ok vals =>
                  rw [hheads] at h
                  simp only [bindOk] at h
                  cases resolvedTypes with
                  | nil => simp at h
                  | cons f0 frest =>
                    simp only [pureRes, Except.ok.injEq] at h
                    subst h
                    exact keysNodup_setKey _ _ _ hnd2
          · simp only [pureRes, Except.ok.injEq] at h
            subst h; exact hnd1
      | lit isNumber v =>
        simp only [resolve, pureRes, Except.ok.injEq] at h
        subst h; exact hnd
      | text s =>
        simp only [resolve] at h
        by_cases hv : s = "void"
        · simp only [hv, if_true, pureRes, Except.ok.injEq] at h
          subst h; exact hnd
        · simp only [hv, if_false, pureRes, Except.ok.injEq] at h
          subst h; exact hnd
    · intro env ts reg out h hnd
      cases ts with
      | nil =>
        simp only [resolveList, pureRes, Except.ok.injEq] at h
        subst h; exact hnd
      | cons t rest =>
        simp only [resolveList] at h
        cases hres : resolve m env t reg with
        | error e => rw [hres] at h; simp [bindError] at h
        | ok val =>
          obtain ⟨f, reg1⟩ := val
          rw [hres] at h
          simp only [bindOk] at h
          cases hres2 : resolveList m env rest reg1 with
          | error e => rw [hres2] at h; simp [bindError] at h
          | ok val2 =>
            obtain ⟨fs, reg2⟩ := val2
            rw [hres2] at h
            simp only [bindOk, pureRes, Except.ok.injEq] at h
            subst h
            exact ihL env rest reg1 (fs, reg2) hres2 (ihR env t reg (f, reg1) hres hnd)
    · intro env t reg out h hnd
      cases t with
      | promise args =>
        cases args with
        | nil => simp [resolvePropType] at h
        | cons a rest =>
          simp only [resolvePropType] at h
          cases hres : resolve m env a reg with
          | error e => rw [hres] at h; simp [bindError] at h
          | ok val =>
            obtain ⟨f, reg1⟩ := val
            rw [hres] at h
            simp only [bindOk, pureRes, Except.ok.injEq] at h
            subst h
            exact ihR env a reg (f, reg1) hres hnd
      | nullable u inner =>
        simp only [resolvePropType] at h
        cases u with
        | true =>
          simp only [if_true] at h
          cases hres : resolve m env inner reg with
          | error e => rw [hres] at h; simp [bindError] at h
          | ok val =>
            obtain ⟨f, reg1⟩ := val
            rw [hres] at h
            simp only [bindOk, pureRes, Except.ok.injEq] at h
            subst h
            exact ihR env inner reg (f, reg1) hres hnd
        | false =>
          simp only [Bool.false_eq_true, if_false] at h
          cases hres : resolve m env inner reg with
          | error e => rw [hres] at h; simp [bindError] at h
          | ok val =>
            obtain ⟨f, reg1⟩ := val
            rw [hres] at h
            simp only [bindOk, pureRes, Except.ok.injEq] at h
            subst h
            exact ihR env inner reg (f, reg1) hres hnd
      | arrayOf elem =>
        simp only [resolvePropType] at h
        cases hres : resolve m env (.arrayOf elem) reg with
        | error e => rw [hres] at h; simp [bindError] at h
        | ok val =>
          obtain ⟨f, reg1⟩ := val
          rw [hres] at h
          simp only [bindOk, pureRes, Except.ok.injEq] at h
          subst h
          exact ihR env _ reg (f, reg1) hres hnd
      | boolean =>
        simp only [resolvePropType] at h
        cases hres : resolve m env .boolean reg with
        | error e => rw [hres] at h; simp [bindError] at h
        | ok val =>
          obtain ⟨f, reg1⟩ := val
          rw [hres] at h
          simp only [bindOk, pureRes, Except.ok.injEq] at h
          subst h
          exact ihR env _ reg (f, reg1) hres hnd
      | unknown =>
        simp only [resolvePropType] at h
        cases hres : resolve m env .unknown reg with
        | error e => rw [hres] at h; simp [bindError] at h
        | ok val =>
          obtain ⟨f, reg1⟩ := val
          rw [hres] at h
          simp only [bindOk, pureRes, Except.ok.injEq] at h
          subst h
          exact ihR env _ reg (f, reg1) hres hnd
      | tuple elems =>
        simp only [resolvePropType] at h
        cases hres : resolve m env (.tuple elems) reg with
        | error e => rw [hres] at h; simp [bindError] at h
        | ok val =>
          obtain ⟨f, reg1⟩ := val
          rw [hres] at h
          simp only [bindOk, pureRes, Except.ok.injEq] at h
          subst h
          exact ihR env _ reg (f, reg1) hres hnd
      | obj id =>
        simp only [resolvePropType] at h
        cases hres : resolve m env (.obj id) reg with
        | error e => rw [hres] at h; simp [bindError] at h
        | ok val =>
          obtain ⟨f, reg1⟩ := val
          rw [hres] at h
          simp only [bindOk, pureRes, Except.ok.injEq] at h
          subst h
          exact ihR env _ reg (f, reg1) hres hnd
      | inter members =>
        simp only [resolvePropType] at h
        cases hres : resolve m env (.inter members) reg with
        | error e => rw [hres] at h; simp [bindError] at h
        | ok val =>
          obtain ⟨f, reg1⟩ := val
          rw [hres] at h
          simp only [bindOk, pureRes, Except.ok.injEq] at h
          subst h
          exact ihR env _ reg (f, reg1) hres hnd
      | union enumSym members =>
        simp only [resolvePropType] at h
        cases hres : resolve m env (.union enumSym members) reg with
        | error e => rw [hres] at h; simp [bindError] at h
        | ok val =>
          obtain ⟨f, reg1⟩ := val
          rw [hres] at h
          simp only [bindOk, pureRes, Except.ok.injEq] at h
          subst h
          exact ihR env _ reg (f, reg1) hres hnd
      | lit isNumber v =>
        simp only [resolvePropType] at h
        cases hres : resolve m env (.lit isNumber v) reg with
        | error e => rw [hres] at h; simp [bindError] at h
        | ok val =>
          obtain ⟨f, reg1⟩ := val
          rw [hres] at h
          simp only [bindOk, pureRes, Except.ok.injEq] at h
          subst h
          exact ihR env _ reg (f, reg1) hres hnd
      | text s =>
        simp only [resolvePropType] at h
        cases hres : resolve m env (.text s) reg with
        | error e => rw [hres] at h; simp [bindError] at h
        | ok val =>
          obtain ⟨f, reg1⟩ := val
          rw [hres] at h
          simp only [bindOk, pureRes, Except.ok.injEq] at h
          subst h
          exact ihR env _ reg (f, reg1) hres hnd
    · intro env ps reg out h hnd
      cases ps with
      | nil =>
        simp only [resolvePropsList, pureRes, Except.ok.injEq] at h
        subst h; exact hnd
      | cons p rest =>
        simp only [resolvePropsList] at h
        cases hres : resolvePropType m env p.ty reg with
        | error e => rw [hres] at h; simp [bindError] at h
        | ok val =>
          obtain ⟨rt0, required, reg1⟩ := val
          rw [hres] at h
          simp only [bindOk] at h
          cases hres2 : resolvePropsList m env rest reg1 with
          | error e => rw [hres2] at h; simp [bindError] at h
          | ok val2 =>
            obtain ⟨fs, reqs, reg2⟩ := val2
            rw [hres2] at h
            simp only [bindOk, pureRes, Except.ok.injEq] at h
            subst h
            exact ihPL env rest reg1 (fs, reqs, reg2) hres2 (ihP env p.ty reg (rt0, required, reg1) hres hnd)
    · intro env d reg out h hnd
      simp only [resolveProperties] at h
      cases hres : resolvePropsList m env d.props reg with
      | error e => rw [hres] at h; simp [bindError] at h
      | ok val =>
        obtain ⟨propFields, reqs, reg1⟩ := val
        rw [hres] at h
        simp only [bindOk] at h
        have hnd1 : keysNodup reg1 := ihPL env d.props reg (propFields, reqs, reg1) hres hnd
        split at h
        · split at h
          · simp only [pureRes, Except.ok.injEq] at h
            subst h; exact hnd1
          · rename_i t x
            cases hres2 : resolve m env t reg1 with
            | error e => rw [hres2] at h; simp [bindError] at h
            | ok val2 =>
              obtain ⟨f, reg2⟩ := val2
              rw [hres2] at h
              simp only [bindOk, pureRes, Except.ok.injEq] at h
              subst h
              exact ihR env t reg1 (f, reg2) hres2 hnd1
          · rename_i t h1 h2
            cases hres2 : resolve m env t reg1 with
            | error e => rw [hres2] at h; simp [bindError] at h
            | ok val2 =>
              obtain ⟨f, reg2⟩ := val2
              rw [hres2] at h
              simp only [bindOk, pureRes, Except.ok.injEq] at h
              subst h
              exact ihR env t reg1 (f, reg2) hres2 hnd1
        · simp only [pureRes, Except.ok.injEq] at h
          subst h; exact hnd1

theorem keysNodup_filter_le_one (r : Registry) (k : String) (h : keysNodup r) :
    (r.filter (fun p => p.1 == k)).length ≤ 1 := by
  induction r with
  | nil => simp
  | cons p rest ih =>
    simp only [keysNodup, List.map_cons, List.nodup_cons] at h
    by_cases hk : p.1 = k
    · have hrest : rest.filter (fun q => q.1 == k) = [] := by
        rw [List.filter_eq_nil_iff]
        intro q hq hqk
        exact h.1 (by
          have : q.1 = p.1 := by
            have := of_decide_eq_true hqk
            simp only [beq_iff_eq] at this
            rw [this, hk]
          rw [← this]
          exact List.mem_map_of_mem Prod.fst hq)
      simp [List.filter_cons, hk, hrest]
    · have hk' : (p.1 == k) = false := by simp [beq_iff_eq, hk]
      simp only [List.filter_cons, hk', Bool.false_eq_true, if_false]
      exact ih h.2

/-! ## Claim theorems -/

/-- C10: `resolve` on a Promise wrapper unconditionally recurses into the
first type argument; when at least one argument is present the access is in
bounds and the result is exactly the resolution of the inner value type (the
rejection channel is not represented). -/
theorem resolve_promise_unwraps (fuel : Nat) (env : TyEnv) (a : Ty) (args : List Ty)
    (reg : Registry) :
    resolve (fuel + 1) env (.promise (a :: args)) reg = resolve fuel env a reg := rfl

/-- C3: resolving the same named (non-anonymous, non-generic) object type
twice in one run yields the same Reference from both calls, the second call
leaves the registry unchanged (so the body is not re-resolved and nothing is
inserted again), and the registry holds at most one entry under the
normalized name. -/
theorem resolve_idempotent_registration
    (env : TyEnv) (id : Nat) (d : ObjDesc) (fuel fuel' : Nat) (reg reg1 : Registry) (f1 : FVal)
    (hd : env[id]? = some d)
    (hdate : retrieveTypeName d ≠ "Date")
    (hanon : ¬ (objTypeName d = "__type" ∨ objTypeName d = "__object" ∨ 0 < d.typeArgs.length))
    (hnd : keysNodup reg)
    (h1 : resolve fuel env (.obj id) reg = .ok (f1, reg1)) :
    f1 = .obj [("$ref", .str (buildRef (stringifyName (objTypeName d))))] ∧
    resolve (fuel' + 1) env (.obj id) reg1 = .ok (f1, reg1) ∧
    (reg1.filter (fun p => p.1 == stringifyName (objTypeName d))).length ≤ 1 := by
  cases fuel with
  | zero => simp [resolve] at h1
  | succ m =>
    simp only [resolve, hd] at h1
    rw [if_neg hdate, if_neg hanon] at h1
    cases hlook : List.lookup (stringifyName (objTypeName d)) reg with
    | some e =>
      rw [hlook] at h1
      simp only [pureRes, Except.ok.injEq, Prod.mk.injEq] at h1
      obtain ⟨hf, hr⟩ := h1
      subst hf
      subst hr
      refine ⟨rfl, ?_, keysNodup_filter_le_one _ _ hnd⟩
      simp only [resolve, hd]
      rw [if_neg hdate, if_neg hanon, hlook]
      rfl
    | none =>
      rw [hlook] at h1
      cases hres : resolveProperties m env d reg with
      | error e => rw [hres] at h1; simp [bindError] at h1
      | ok val =>
        obtain ⟨props, regp⟩ := val
        rw [hres] at h1
        simp only [bindOk, pureRes, Except.ok.injEq, Prod.mk.injEq] at h1
        obtain ⟨hf, hr⟩ := h1
        subst hf
        have hndp : keysNodup regp :=
          (keysNodup_preserved m).2.2.2.2 env d reg (props, regp) hres hnd
        have hnd1 : keysNodup reg1 := by
          rw [← hr]
          exact keysNodup_setKey _ _ _ hndp
        refine ⟨rfl, ?_, keysNodup_filter_le_one _ _ hnd1⟩
        simp only [resolve, hd]
        rw [if_neg hdate, if_neg hanon, ← hr, lookup_setKey_self]
        rfl

/-- C3 witness: a concrete named interface `User` with one number property,
resolved from an empty registry and then once more. -/
theorem resolve_idempotent_registration_witness :
    FVal.obj [("$ref", .str "#/components/schemas/User")] =
      .obj [("$ref", .str (buildRef (stringifyName
        (objTypeName ⟨"User", none, false, "User", [], [⟨"id", .text "number", none,
          false, false, none, []⟩], none, none⟩))))] ∧
    resolve 3 [⟨"User", none, false, "User", [], [⟨"id", .text "number", none,
        false, false, none, []⟩], none, none⟩] (.obj 0)
      [("User", .obj [("type", .str "object"),
        ("properties", .obj [("id", .obj [("type", .str "number")])]),
        ("required", .arr [.str "id"])])] =
      .ok (.obj [("$ref", .str "#/components/schemas/User")],
        [("User", .obj [("type", .str "object"),
          ("properties", .obj [("id", .obj [("type", .str "number")])]),
          ("required", .arr [.str "id"])])]) ∧
    (List.filter (fun p => p.1 == stringifyName (objTypeName
        (⟨"User", none, false, "User", [], [⟨"id", .text "number", none,
          false, false, none, []⟩], none, none⟩ : ObjDesc)))
      [("User", FVal.obj [("type", .str "object"),
        ("properties", .obj [("id", .obj [("type", .str "number")])]),
        ("required", .arr [.str "id"])])]).length ≤ 1 :=
  resolve_idempotent_registration
    [⟨"User", none, false, "User", [], [⟨"id", .text "number", none,
      false, false, none, []⟩], none, none⟩] 0
    ⟨"User", none, false, "User", [], [⟨"id", .text "number", none,
      false, false, none, []⟩], none, none⟩ 10 2 []
    [("User", .obj [("type", .str "object"),
      ("properties", .obj [("id", .obj [("type", .str "number")])]),
      ("required", .arr [.str "id"])])]
    (.obj [("$ref", .str "#/components/schemas/User")])
    rfl (by decide) (by decide) (by simp [keysNodup]) rfl

/-- C7: when the required list ends up empty, the `required` key is entirely
absent from the result of `resolveProperties`; when it is nonempty, the
`required` field holds exactly the collected required property names. -/
theorem resolveProperties_required_omission
    (fuel : Nat) (env : TyEnv) (d : ObjDesc) (reg reg' regp : Registry)
    (fields propFields : Fields) (reqs : List String)
    (hpl : resolvePropsList fuel env d.props reg = .ok (propFields, reqs, regp))
    (h : resolveProperties (fuel + 1) env d reg = .ok (fields, reg')) :
    (reqs = [] → List.lookup "required" fields = none) ∧
    (reqs ≠ [] → List.lookup "required" fields = some (.arr (reqs.map .str))) := by
  simp only [resolveProperties] at h
  rw [hpl] at h
  simp only [bindOk] at h
  split at h
  · split at h
    · simp only [pureRes, Except.ok.injEq, Prod.mk.injEq] at h
      obtain ⟨hfields, -⟩ := h
      subst hfields
      constructor
      · intro hreqs
        simp [hreqs, List.lookup]
      · intro hreqs
        simp [hreqs, List.lookup]
    · rename_i t x
      cases hres2 : resolve fuel env t regp with
      | error e =>
        rw [hres2] at h
        simp [bindError] at h
      | ok val2 =>
        obtain ⟨f, reg2⟩ := val2
        rw [hres2] at h
        simp only [bindOk, pureRes, Except.ok.injEq, Prod.mk.injEq] at h
        obtain ⟨hfields, -⟩ := h
        subst hfields
        constructor
        · intro hreqs
          simp [hreqs, List.lookup]
        · intro hreqs
          simp [hreqs, List.lookup]
    · rename_i t h1 h2
      cases hres2 : resolve fuel env t regp with
      | error e =>
        rw [hres2] at h
        simp [bindError] at h
      | ok val2 =>
        obtain ⟨f, reg2⟩ := val2
        rw [hres2] at h
        simp only [bindOk, pureRes, Except.ok.injEq, Prod.mk.injEq] at h
        obtain ⟨hfields, -⟩ := h
        subst hfields
        constructor
        · intro hreqs
          simp [hreqs, List.lookup]
        · intro hreqs
          simp [hreqs, List.lookup]
  · simp only [pureRes, Except.ok.injEq, Prod.mk.injEq] at h
    obtain ⟨hfields, -⟩ := h
    subst hfields
    constructor
    · intro hreqs
      simp [hreqs, List.lookup]
    · intro hreqs
      simp [hreqs, List.lookup]

/-- C7 witness: an object type whose only property is optional, so the
required list ends empty and the `required` key is absent. -/
theorem resolveProperties_required_omission_witness :
    ([] = ([] : List String) →
      List.lookup "required"
        [("properties", FVal.obj [("a", .obj [("type", .str "string")])])] = none) ∧
    (([] : List String) ≠ [] →
      List.lookup "required"
        [("properties", FVal.obj [("a", .obj [("type", .str "string")])])] =
        some (.arr (List.map FVal.str []))) :=
  resolveProperties_required_omission 5 []
    ⟨"T", none, false, "T", [], [⟨"a", .nullable true (.text "string"), none,
      false, false, none, []⟩], none, none⟩
    [] [] [] [("properties", FVal.obj [("a", .obj [("type", .str "string")])])]
    [("a", .obj [("type", .str "string")])] [] rfl rfl

/-- C9: with zero declared properties, `additionalProperties` is resolved
from the string index signature's value type when one is present (taking
precedence over a number index signature), and from the number index
signature's value type otherwise. -/
theorem resolveProperties_index_signatures
    (fuel : Nat) (env : TyEnv) (d : ObjDesc) (reg reg2 : Registry) (s : Ty) (f : FVal)
    (hprops : d.props = [])
    (hres : resolve (fuel + 1) env s reg = .ok (f, reg2)) :
    (d.stringIndex = some s →
      resolveProperties (fuel + 2) env d reg =
        .ok ([("properties", .obj []), ("additionalProperties", f)], reg2)) ∧
    (d.stringIndex = none → d.numberIndex = some s →
      resolveProperties (fuel + 2) env d reg =
        .ok ([("properties", .obj []), ("additionalProperties", f)], reg2)) := by
  constructor
  · intro hsi
    simp only [resolveProperties, hprops, resolvePropsList, pureRes, bindOk, hsi,
      List.length_nil, if_pos rfl, hres]
    rfl
  · intro hsi hni
    simp only [resolveProperties, hprops, resolvePropsList, pureRes, bindOk, hsi, hni,
      List.length_nil, if_pos rfl, hres]
    rfl

/-- C9 witness: a `Record`-like type with both index signatures resolves
`additionalProperties` from the string-keyed one. -/
theorem resolveProperties_index_signatures_witness :
    ((⟨"R", none, false, "R", [], [], some (.text "string"), some .boolean⟩ : ObjDesc).stringIndex
        = some (.text "string") →
      resolveProperties 7 [] ⟨"R", none, false, "R", [], [], some (.text "string"), some .boolean⟩
        [] = .ok ([("properties", .obj []),
          ("additionalProperties", .obj [("type", .str "string")])], [])) ∧
    ((⟨"R", none, false, "R", [], [], some (.text "string"), some .boolean⟩ : ObjDesc).stringIndex
        = none →
      (⟨"R", none, false, "R", [], [], some (.text "string"), some .boolean⟩ : ObjDesc).numberIndex
        = some (.text "string") →
      resolveProperties 7 [] ⟨"R", none, false, "R", [], [], some (.text "string"), some .boolean⟩
        [] = .ok ([("properties", .obj []),
          ("additionalProperties", .obj [("type", .str "string")])], [])) :=
  resolveProperties_index_signatures 5 []
    ⟨"R", none, false, "R", [], [], some (.text "string"), some .boolean⟩
    [] [] (.text "string") (.obj [("type", .str "string")]) rfl rfl

/-! ## Self-referential named type (claim C1) -/

/-- Descriptor of `class Node with child: Node`, a genuinely self-referential
named type: its only property is of the type itself. -/
def nodeDesc : ObjDesc :=
  ⟨"Node", none, false, "Node", [],
    [⟨"child", .obj 0, none, false, false, none, []⟩], none, none⟩

def nodeEnv : TyEnv := [nodeDesc]

/-- C1: against the claim, the registry entry is only written after
`resolveProperties` returns (the body of the assignment at src/resolve.ts
lines 123-128 is evaluated before the store), so a self-referential named
type re-enters `resolve` with the name still unregistered and the run
exhausts every fuel bound: it never terminates. -/
theorem resolve_self_reference_diverges (fuel : Nat) (reg : Registry)
    (hreg : List.lookup "Node" reg = none) :
    resolve fuel nodeEnv (.obj 0) reg = .error .outOfFuel := by
  induction fuel using Nat.strong_induction_on generalizing reg with
  | _ fuel ih =>
    rcases fuel with _ | m
    · rfl
    · have henv : nodeEnv[0]? = some nodeDesc := rfl
      simp only [resolve, henv]
      rw [if_neg (by decide : ¬ retrieveTypeName nodeDesc = "Date"),
        if_neg (by decide : ¬ (objTypeName nodeDesc = "__type" ∨
          objTypeName nodeDesc = "__object" ∨ 0 < nodeDesc.typeArgs.length))]
      have hreg' : List.lookup (stringifyName (objTypeName nodeDesc)) reg = none := hreg
      rw [hreg']
      have hprops : resolveProperties m nodeEnv nodeDesc reg = .error .outOfFuel := by
        rcases m with _ | k
        · rfl
        · have hpl : resolvePropsList k nodeEnv nodeDesc.props reg = .error .outOfFuel := by
            rcases k with _ | j
            · rfl
            · have hp : nodeDesc.props = [⟨"child", .obj 0, none, false, false, none, []⟩] :=
                rfl
              rw [hp]
              have hpt : resolvePropType j nodeEnv (.obj 0) reg = .error .outOfFuel := by
                rcases j with _ | i
                · rfl
                · simp only [resolvePropType]
                  rw [ih i (by omega) reg hreg]
                  rfl
              simp only [resolvePropsList, hpt, bindError]
          simp only [resolveProperties, hpl, bindError]
      rw [hprops]
      rfl

/-- C1 witness: with fuel 5 and an empty registry, the self-referential run
already reports fuel exhaustion. -/
theorem resolve_self_reference_diverges_witness :
    resolve 5 nodeEnv (.obj 0) [] = .error .outOfFuel :=
  resolve_self_reference_diverges 5 [] rfl

/-! ## Nullable vs optional (claim C2) -/

/-- C2 counterexample: a property declared `string or null or undefined`
reaches the engine as a nullable type whose union contains `undefined` and
whose non-nullable remainder is `string` (getNonNullableType strips both
`null` and `undefined`) — exactly the same descriptor as plain
`string or undefined`.  The run marks the property not required but its
schema is a bare string schema: no `nullable: true` appears, against the
claim's third case. -/
theorem resolve_nullable_undefined_counterexample :
    resolve 10 [⟨"C2T", none, false, "C2T", [],
        [⟨"c", .nullable true (.text "string"), none, false, false, none, []⟩], none, none⟩]
      (.obj 0) [] =
      .ok (.obj [("$ref", .str "#/components/schemas/C2T")],
        [("C2T", .obj [("type", .str "object"),
          ("properties", .obj [("c", .obj [("type", .str "string")])])])]) ∧
    List.lookup "nullable" [("type", FVal.str "string")] = none ∧
    List.lookup "required" [("type", FVal.str "object"),
      ("properties", FVal.obj [("c", .obj [("type", .str "string")])])] = none :=
  ⟨rfl, rfl, rfl⟩

/-- C2 amended: a property typed `string or null` is required and marked
`nullable: true`; a property whose declared type contains `undefined` is not
required and resolves to a plain string schema with no `nullable` mark — and
since the engine only sees the non-nullable remainder and an
`undefined`-membership flag, `string or null or undefined` behaves exactly
like `string or undefined` (not required, no `nullable` mark). -/
theorem resolvePropType_nullable_vs_optional (fuel : Nat) (env : TyEnv) (reg : Registry) :
    resolvePropType (fuel + 2) env (.nullable false (.text "string")) reg =
      .ok (.obj [("type", .str "string"), ("nullable", .bool true)], true, reg) ∧
    resolvePropType (fuel + 2) env (.nullable true (.text "string")) reg =
      .ok (.obj [("type", .str "string")], false, reg) ∧
    resolve 10 [⟨"S", none, false, "S", [],
        [⟨"a", .nullable false (.text "string"), none, false, false, none, []⟩,
         ⟨"b", .nullable true (.text "string"), none, false, false, none, []⟩,
         ⟨"c", .nullable true (.text "string"), none, false, false, none, []⟩], none, none⟩]
      (.obj 0) [] =
      .ok (.obj [("$ref", .str "#/components/schemas/S")],
        [("S", .obj [("type", .str "object"),
          ("properties", .obj
            [("a", .obj [("type", .str "string"), ("nullable", .bool true)]),
             ("b", .obj [("type", .str "string")]),
             ("c", .obj [("type", .str "string")])]),
          ("required", .arr [.str "a"])])]) :=
  ⟨rfl, rfl, rfl⟩

/-! ## Enum collapsing (claim C5) -/

theorem resolveList_lits (env : TyEnv) (members : List Ty) :
    ∀ fuel reg, (∀ m ∈ members, ∃ b v, m = Ty.lit b v) → members.length + 1 ≤ fuel →
      ∃ fs, resolveList fuel env members reg = .ok (fs, reg) := by
  induction members with
  | nil =>
    intro fuel reg _ hf
    rcases fuel with _ | k
    · omega
    · exact ⟨[], rfl⟩
  | cons m rest ih =>
    intro fuel reg hall hf
    rcases fuel with _ | k
    · omega
    · obtain ⟨b, v, rfl⟩ := hall m (List.mem_cons_self m rest)
      rcases k with _ | j
      · simp only [List.length_cons] at hf
        omega
      · have hm : resolve (j + 1) env (.lit b v) reg =
            .ok (.obj [("type", .str (if b then "number" else "string")),
              ("enum", .arr [litFVal v])], reg) := rfl
        obtain ⟨fs, hrest⟩ := ih (j + 1) reg
          (fun x hx => hall x (List.mem_cons_of_mem _ hx))
          (by simp only [List.length_cons] at hf; omega)
        refine ⟨FVal.obj [("type", .str (if b then "number" else "string")),
          ("enum", .arr [litFVal v])] :: fs, ?_⟩
        have hstep : resolveList (j + 1 + 1) env (Ty.lit b v :: rest) reg =
            (resolve (j + 1) env (Ty.lit b v) reg) >>= (fun d1 =>
              (resolveList (j + 1) env rest d1.2) >>= (fun d2 =>
                pure (d1.1 :: d2.1, d2.2))) := rfl
        rw [hstep]
        simp only [hm, hrest, bindOk, pureRes]

/-- Explicit form of literal-member resolution: each member yields its
single-value enum fragment, the registry untouched. -/
theorem resolveList_litFrags (env : TyEnv) (ms : List (Bool × LitVal)) :
    ∀ fuel reg, ms.length + 1 ≤ fuel →
      resolveList fuel env (ms.map fun p => Ty.lit p.1 p.2) reg =
        .ok (ms.map fun p => FVal.obj
          [("type", .str (if p.1 then "number" else "string")),
           ("enum", .arr [litFVal p.2])], reg) := by
  induction ms with
  | nil =>
    intro fuel reg hf
    rcases fuel with _ | k
    · omega
    · rfl
  | cons p rest ih =>
    intro fuel reg hf
    rcases fuel with _ | k
    · omega
    · rcases k with _ | j
      · simp only [List.length_cons] at hf
        omega
      · have hm : resolve (j + 1) env (Ty.lit p.1 p.2) reg =
            .ok (.obj [("type", .str (if p.1 then "number" else "string")),
              ("enum", .arr [litFVal p.2])], reg) := rfl
        have hrest := ih (j + 1) reg (by simp only [List.length_cons] at hf; omega)
        have hstep : resolveList (j + 1 + 1) env ((p :: rest).map fun q => Ty.lit q.1 q.2) reg =
            (resolve (j + 1) env (Ty.lit p.1 p.2) reg) >>= (fun d1 =>
              (resolveList (j + 1) env (rest.map fun q => Ty.lit q.1 q.2) d1.2) >>= (fun d2 =>
                pure (d1.1 :: d2.1, d2.2))) := rfl
        rw [hstep]
        simp only [hm, hrest, bindOk, pureRes, List.map_cons]

/-- The `enum![0]` extraction on a list of single-value enum fragments yields
exactly the member values, in order. -/
theorem enumHeads_litFrags (ms : List (Bool × LitVal)) :
    enumHeads (ms.map fun p => FVal.obj
      [("type", .str (if p.1 then "number" else "string")),
       ("enum", .arr [litFVal p.2])]) =
      .ok (ms.map fun p => litFVal p.2) := by
  induction ms with
  | nil => rfl
  | cons p rest ih =>
    have hlk : List.lookup "enum"
        [("type", FVal.str (if p.1 then "number" else "string")),
         ("enum", FVal.arr [litFVal p.2])] = some (.arr [litFVal p.2]) := rfl
    simp only [List.map_cons, enumHeads, hlk, ih, bindOk, pureRes]

/-- C5: once the normalized enum name is registered, every further resolution
of the enum union — whatever the call site's registry state — is the same
Reference with the registry untouched; and for every enum union of literal
members whose normalized name is unregistered, each member resolves to a
single-value enum fragment and one combined entry is registered under the
name, its declared type the first member's primitive type and its enum list
all member values in order, with the same Reference returned. -/
theorem resolve_enum_collapsing
    (fuel fuel0 : Nat) (env : TyEnv) (members : List Ty) (reg reg0 : Registry)
    (rawName : String) (e : FVal) (p0 : Bool × LitVal) (ptl : List (Bool × LitVal))
    (hall : ∀ m ∈ members, ∃ b v, m = Ty.lit b v)
    (hlook : List.lookup (stringifyName rawName) reg = some e)
    (hfuel : members.length + 1 ≤ fuel)
    (hlook0 : List.lookup (stringifyName rawName) reg0 = none)
    (hfuel0 : (p0 :: ptl).length + 1 ≤ fuel0) :
    resolve (fuel + 1) env (.union (some rawName) members) reg =
      .ok (.obj [("$ref", .str (buildRef (stringifyName rawName)))], reg) ∧
    resolve (fuel0 + 1) env
      (.union (some rawName) ((p0 :: ptl).map fun p => Ty.lit p.1 p.2)) reg0 =
      .ok (.obj [("$ref", .str (buildRef (stringifyName rawName)))],
        setKey reg0 (stringifyName rawName)
          (.obj [("type", .str (if p0.1 then "number" else "string")),
            ("enum", .arr ((p0 :: ptl).map fun p => litFVal p.2))])) := by
  constructor
  · obtain ⟨fs, hlist⟩ := resolveList_lits env members fuel reg hall hfuel
    simp only [resolve, hlist, bindOk]
    rw [hlook]
    rfl
  · have hlist0 := resolveList_litFrags env (p0 :: ptl) fuel0 reg0 hfuel0
    have hheads := enumHeads_litFrags (p0 :: ptl)
    have hft : fragTypeField (FVal.obj
        [("type", FVal.str (if p0.1 then "number" else "string")),
         ("enum", FVal.arr [litFVal p0.2])]) =
        FVal.str (if p0.1 then "number" else "string") := rfl
    simp only [resolve, hlist0, bindOk]
    rw [hlook0]
    simp only [hlist0, bindOk, List.map_cons] at hheads ⊢
    simp only [hheads, bindOk, hft, pureRes]

/-- C5 witness: the `Color` union of three number literals registers one
combined entry from an empty registry; after that a resolution at another
call site returns the same Reference and leaves the registry unchanged. -/
theorem resolve_enum_collapsing_witness :
    resolve 11 [] (.union (some "Color") [.lit true (.n 1), .lit true (.n 2), .lit true (.n 3)])
      [("Color", .obj [("type", .str "number"),
        ("enum", .arr [.num (.num 1), .num (.num 2), .num (.num 3)])])] =
      .ok (.obj [("$ref", .str (buildRef (stringifyName "Color")))],
        [("Color", .obj [("type", .str "number"),
          ("enum", .arr [.num (.num 1), .num (.num 2), .num (.num 3)])])]) ∧
    resolve 11 []
      (.union (some "Color")
        (((true, LitVal.n 1) :: [(true, LitVal.n 2), (true, LitVal.n 3)]).map
          fun p => Ty.lit p.1 p.2)) [] =
      .ok (.obj [("$ref", .str (buildRef (stringifyName "Color")))],
        setKey [] (stringifyName "Color")
          (.obj [("type", .str (if (true, LitVal.n 1).1 then "number" else "string")),
            ("enum", .arr (((true, LitVal.n 1) :: [(true, LitVal.n 2), (true, LitVal.n 3)]).map
              fun p => litFVal p.2))])) :=
  resolve_enum_collapsing 10 10 []
    [.lit true (.n 1), .lit true (.n 2), .lit true (.n 3)]
    [("Color", .obj [("type", .str "number"),
      ("enum", .arr [.num (.num 1), .num (.num 2), .num (.num 3)])])]
    []
    "Color"
    (.obj [("type", .str "number"),
      ("enum", .arr [.num (.num 1), .num (.num 2), .num (.num 3)])])
    (true, LitVal.n 1) [(true, LitVal.n 2), (true, LitVal.n 3)]
    (by
      intro m hm
      simp only [List.mem_cons, List.not_mem_nil, or_false] at hm
      rcases hm with rfl | rfl | rfl
      · exact ⟨true, .n 1, rfl⟩
      · exact ⟨true, .n 2, rfl⟩
      · exact ⟨true, .n 3, rfl⟩)
    rfl (by decide) rfl (by decide)

/-! ## Malformed documentation tags (claim C6) -/

/-- C6 counterexample: a `minimum` tag whose text is not numeric does not
abort the resolution — the run succeeds, and the facet is the JS `NaN`
produced by the total `parseFloat` (not zero, and not an error). -/
theorem resolve_malformed_tag_counterexample :
    resolve 10 [⟨"C6T", none, false, "C6T", [],
        [⟨"n", .text "number", none, false, false, none,
          [⟨"minimum", some "abc"⟩]⟩], none, none⟩] (.obj 0) [] =
      .ok (.obj [("$ref", .str "#/components/schemas/C6T")],
        [("C6T", .obj [("type", .str "object"),
          ("properties", .obj [("n", .obj [("type", .str "number"),
            ("minimum", .num .nan)])]),
          ("required", .arr [.str "n"])])]) ∧
    jsParseFloat "abc" = .nan ∧ JsNum.nan ≠ JsNum.num 0 :=
  ⟨rfl, rfl, by decide⟩

/-- C6 amended: the numeric facet text goes through the total JS `parseFloat`;
a text it cannot parse becomes `NaN` on the fragment, the run is not aborted,
and the value is never coerced to zero. -/
theorem resolvePropsList_malformed_numeric_tag
    (fuel : Nat) (env : TyEnv) (reg : Registry) (s : String)
    (hs : s ≠ "") (hnan : jsParseFloat s = .nan) :
    resolvePropsList (fuel + 3) env
      [⟨"n", .text "number", none, false, false, none, [⟨"minimum", some s⟩]⟩] reg =
      .ok ([("n", .obj [("type", .str "number"), ("minimum", .num .nan)])], ["n"], reg) ∧
    JsNum.nan ≠ JsNum.num 0 := by
  refine ⟨?_, by decide⟩
  have h1 : resolvePropType (fuel + 2) env (.text "number") reg =
      .ok (.obj [("type", .str "number")], true, reg) := rfl
  have h2 : appendJsDocTags [⟨"minimum", some s⟩] (.obj [("type", .str "number")]) =
      .obj [("type", .str "number"), ("minimum", .num (jsParseFloat s))] := by
    simp only [appendJsDocTags, List.foldl]
    rw [if_pos ⟨by decide, hs⟩]
    rw [if_pos (show True ∨ "minimum" = "maximum" from Or.inl trivial)]
    rfl
  have h0 : isReadonly ⟨"n", .text "number", none, false, false, none,
      [⟨"minimum", some s⟩]⟩ = false := rfl
  simp only [resolvePropsList, h1, bindOk, h0, Bool.false_eq_true, if_false, h2, hnan, pureRes]
  rfl

/-- C6 witness: the amended statement at the concrete malformed text `abc`. -/
theorem resolvePropsList_malformed_numeric_tag_witness :
    resolvePropsList 8 []
      [⟨"n", .text "number", none, false, false, none, [⟨"minimum", some "abc"⟩]⟩] [] =
      .ok ([("n", .obj [("type", .str "number"), ("minimum", .num .nan)])], ["n"], []) ∧
    JsNum.nan ≠ JsNum.num 0 :=
  resolvePropsList_malformed_numeric_tag 5 [] [] "abc" (by decide) rfl

/-! ## Read-only classification (claim C8) -/

/-- Modelled from the spec's words for comparison: a property "has an
explicit immutability modifier" when the readonly bit is set in its combined
modifier flags (whatever other modifiers accompany it). -/
def specHasReadonlyModifier (p : PropDesc) : Bool :=
  match p.modifierFlags with
  | some f => f.testBit 6
  | none => false

/-- C8 counterexample: a property whose combined modifier flags are
`Private | Readonly` (8 + 64 = 72) carries an explicit readonly modifier, yet
the engine's strict equality test `modifierFlags === ts.ModifierFlags.Readonly`
rejects it and the resolved fragment carries no `readOnly` mark. -/
theorem isReadonly_modifier_counterexample :
    specHasReadonlyModifier ⟨"x", .text "string", some 72, false, false, none, []⟩ = true ∧
    isReadonly ⟨"x", .text "string", some 72, false, false, none, []⟩ = false ∧
    resolvePropsList 8 []
      [⟨"x", .text "string", some 72, false, false, none, []⟩] [] =
      .ok ([("x", .obj [("type", .str "string")])], ["x"], []) ∧
    List.lookup "readOnly" [("type", FVal.str "string")] = none :=
  ⟨rfl, rfl, rfl, rfl⟩

/-- C8 amended: the fragment is marked read-only exactly when the combined
modifier flags equal the readonly flag alone (strict equality with 64), or
the accessor test passes (get-accessor flag resolves to `true` and the
set-accessor flag resolves to exactly `false`), or a `readonly` documentation
tag is present; a property with flags equal to 64 is marked on the resolved
fragment. -/
theorem isReadonly_characterization (p : PropDesc) :
    (isReadonly p = true ↔
      (p.modifierFlags = some 64 ∨
        (hasFlagsGet p = some true ∧ hasFlagsSet p = some false) ∨
        (∃ t ∈ p.jsDocTags, t.name = "readonly"))) ∧
    resolvePropsList 8 []
      [⟨"y", .text "string", some 64, false, false, none, []⟩] [] =
      .ok ([("y", .obj [("type", .str "string"), ("readOnly", .bool true)])], ["y"], []) := by
  constructor
  · simp only [isReadonly, tsModifierFlagsReadonly, List.any_eq_true, beq_iff_eq,
      Bool.or_eq_true, Bool.and_eq_true]
    tauto
  · rfl

/-! ## Name normalization idempotence (claim C4)

The percent-encoder is the one stage that is not idempotent: any character it
escapes introduces `%`, which the next application escapes again.  The
identity lemmas below show every stage fixes strings made of characters the
encoder leaves alone (minus the quote and parenthesis characters, which
earlier stages always eliminate). -/

/-- Characters every `stringifyName` stage leaves untouched: unescaped by the
percent-encoder and not a quote or parenthesis. -/
def safeChar (c : Char) : Prop :=
  unreservedChar c = true ∧ c ≠ squote ∧ c ≠ lparen ∧ c ≠ rparen

theorem safe_ne {c d : Char} (hc : safeChar c) (hd : unreservedChar d = false) : c ≠ d := by
  intro he
  rw [he] at hc
  rw [hc.1] at hd
  cases hd

theorem safe_not_ws {c : Char} (hc : safeChar c) : jsWhitespace c = false := by
  cases hw : jsWhitespace c
  · rfl
  · simp only [jsWhitespace, Bool.or_eq_true, beq_iff_eq] at hw
    rcases hw with ((((((hw | hw) | hw) | hw) | hw) | hw) | hw) | hw <;>
      (rw [hw] at hc; exact absurd hc.1 (by decide))

theorem mem_expand {f : Char → List Char} {l : List Char} {c : Char} :
    c ∈ expand f l ↔ ∃ a ∈ l, c ∈ f a := by
  induction l with
  | nil => simp [expand]
  | cons a rest ih =>
    simp only [expand, List.mem_append, ih, List.mem_cons]
    constructor
    · rintro (h | ⟨b, hb, hcb⟩)
      · exact ⟨a, Or.inl rfl, h⟩
      · exact ⟨b, Or.inr hb, hcb⟩
    · rintro ⟨b, rfl | hb, hcb⟩
      · exact Or.inl hcb
      · exact Or.inr ⟨b, hb, hcb⟩

theorem expand_id {f : Char → List Char} {l : List Char} (h : ∀ c ∈ l, f c = [c]) :
    expand f l = l := by
  induction l with
  | nil => rfl
  | cons a rest ih =>
    simp only [expand, h a (List.mem_cons_self a rest)]
    rw [ih (fun c hc => h c (List.mem_cons_of_mem _ hc))]
    rfl

theorem map_id_of {f : Char → Char} {l : List Char} (h : ∀ c ∈ l, f c = c) :
    l.map f = l := by
  induction l with
  | nil => rfl
  | cons a rest ih =>
    simp only [List.map_cons, h a (List.mem_cons_self a rest)]
    rw [ih (fun c hc => h c (List.mem_cons_of_mem _ hc))]

theorem filter_id_of {p : Char → Bool} {l : List Char} (h : ∀ c ∈ l, p c = true) :
    l.filter p = l := by
  induction l with
  | nil => rfl
  | cons a rest ih =>
    simp only [List.filter_cons, h a (List.mem_cons_self a rest), if_true]
    rw [ih (fun c hc => h c (List.mem_cons_of_mem _ hc))]

theorem stripPairs_id (q : Char) (l : List Char) (h : ∀ c ∈ l, c ≠ q) :
    stripPairs q l = l := by
  unfold stripPairs
  induction l with
  | nil => rfl
  | cons a rest ih =>
    simp only [stripPairsGo, if_neg (h a (List.mem_cons_self a rest))]
    rw [ih (fun c hc => h c (List.mem_cons_of_mem _ hc))]

theorem arrayMark_id (l : List Char) (h : ∀ c ∈ l, c ≠ lbrack) : arrayMark l = l := by
  induction l with
  | nil => rfl
  | cons a rest ih =>
    cases rest with
    | nil => rfl
    | cons b r2 =>
      have hab : ¬ (a = lbrack ∧ b = rbrack) := fun hc =>
        h a (List.mem_cons_self a _) hc.1
      simp only [arrayMark, if_neg hab]
      rw [ih (fun c hc => h c (List.mem_cons_of_mem _ hc))]

theorem colonGo_id (l : List Char) (h : ∀ c ∈ l, c ≠ ':') :
    colonGo l .out = l ∧ ∀ r, colonGo l (.run1 r) = r.reverse ++ l := by
  induction l with
  | nil =>
    refine ⟨rfl, fun r => ?_⟩
    simp [colonGo]
  | cons a rest ih =>
    have hih := ih (fun c hc => h c (List.mem_cons_of_mem _ hc))
    have ha : a ≠ ':' := h a (List.mem_cons_self a rest)
    constructor
    · by_cases hl : letter a = true
      · simp only [colonGo, if_pos hl]
        rw [hih.2 [a]]
        rfl
      · simp only [colonGo, if_neg hl]
        rw [hih.1]
    · intro r
      by_cases hl : letter a = true
      · simp only [colonGo, if_pos hl]
        rw [hih.2 (a :: r)]
        simp
      · simp only [colonGo, if_neg hl, if_neg ha]
        rw [hih.1]

theorem brGo_id (l : List Char) (h : ∀ c ∈ l, c ≠ lbrack) :
    brGo l .out = l ∧ ∀ r, brGo l (.run1 r) = r.reverse ++ l := by
  induction l with
  | nil =>
    refine ⟨rfl, fun r => ?_⟩
    simp [brGo]
  | cons a rest ih =>
    have hih := ih (fun c hc => h c (List.mem_cons_of_mem _ hc))
    have ha : a ≠ lbrack := h a (List.mem_cons_self a rest)
    constructor
    · by_cases hl : letter a = true
      · simp only [brGo, if_pos hl]
        rw [hih.2 [a]]
        rfl
      · simp only [brGo, if_neg hl]
        rw [hih.1]
    · intro r
      by_cases hl : letter a = true
      · simp only [brGo, if_pos hl]
        rw [hih.2 (a :: r)]
        simp
      · simp only [brGo, if_neg hl, if_neg ha]
        rw [hih.1]

theorem stripImportGo_id (n : Nat) (l : List Char) (h : ∀ c ∈ l, c ≠ lparen) :
    stripImportGo n l = l := by
  induction n generalizing l with
  | zero => cases l <;> rfl
  | succ m ih =>
    cases l with
    | nil => rfl
    | cons a rest =>
      have hpre : ¬ ((a :: rest).take 7 = "import(".toList) := by
        intro he
        have hmem : lparen ∈ (a :: rest).take 7 := by
          rw [he]
          decide
        exact h lparen (List.take_subset _ _ hmem) rfl
      simp only [stripImportGo, if_neg hpre]
      rw [ih rest (fun c hc => h c (List.mem_cons_of_mem _ hc))]

theorem stripImport_id (l : List Char) (h : ∀ c ∈ l, c ≠ lparen) : stripImport l = l := by
  unfold stripImport
  exact stripImportGo_id _ _ h

theorem stripPromise_id (l : List Char) (h : ∀ c ∈ l, safeChar c) : stripPromise l = l := by
  unfold stripPromise
  rw [if_neg]
  intro he
  have hmem : '<' ∈ l.take 8 := by
    rw [he]
    decide
  exact absurd (h _ (List.take_subset _ _ hmem)).1 (by decide)

theorem encChar_eq_of_unreserved {c : Char} (h : unreservedChar c = true) : encChar c = [c] := by
  simp [encChar, h]

theorem utf8Bytes_ne_nil (c : Char) : utf8Bytes c ≠ [] := by
  by_cases h1 : c.toNat < 128
  · simp [utf8Bytes, h1]
  · by_cases h2 : c.toNat < 2048 <;> by_cases h3 : c.toNat < 65536 <;>
      simp [utf8Bytes, h1, h2, h3]

theorem percent_mem_encChar {c : Char} (h : unreservedChar c = false) : '%' ∈ encChar c := by
  simp only [encChar, h, Bool.false_eq_true, if_false]
  rcases hb : utf8Bytes c with _ | ⟨b, bs⟩
  · exact absurd hb (utf8Bytes_ne_nil c)
  · simp [List.foldr]

theorem encode_percent_free {l : List Char} (h : '%' ∉ encodeURIComponentChars l) :
    (∀ c ∈ l, unreservedChar c = true) ∧ encodeURIComponentChars l = l := by
  simp only [encodeURIComponentChars] at h ⊢
  induction l with
  | nil => exact ⟨by simp, rfl⟩
  | cons a rest ih =>
    have h1 : '%' ∉ encChar a := fun hm =>
      h (by simpa [expand] using Or.inl hm)
    have h2 : '%' ∉ expand encChar rest := fun hm =>
      h (by simpa [expand] using Or.inr hm)
    have ha : unreservedChar a = true := by
      cases hu : unreservedChar a
      · exact absurd (percent_mem_encChar hu) h1
      · rfl
    obtain ⟨hrest, hrec⟩ := ih h2
    refine ⟨?_, ?_⟩
    · intro c hc
      rcases List.mem_cons.mp hc with rfl | hc
      · exact ha
      · exact hrest c hc
    · simp only [expand, encChar_eq_of_unreserved ha, hrec]
      rfl

theorem f13_ne_paren (d : Char) :
    ((if d = lbrace ∨ d = rbrace ∨ d = lbrack ∨ d = rbrack ∨ d = lparen ∨ d = rparen
      then '_' else d) ≠ lparen) ∧
    ((if d = lbrace ∨ d = rbrace ∨ d = lbrack ∨ d = rbrack ∨ d = lparen ∨ d = rparen
      then '_' else d) ≠ rparen) := by
  by_cases hdc : d = lbrace ∨ d = rbrace ∨ d = lbrack ∨ d = rbrack ∨ d = lparen ∨ d = rparen
  · rw [if_pos hdc]
    exact ⟨by decide, by decide⟩
  · rw [if_neg hdc]
    push_neg at hdc
    exact ⟨hdc.2.2.2.2.1, hdc.2.2.2.2.2⟩

/-- The rewrite chain never lets a quote or a parenthesis through: quotes are
stripped by the final stage, parentheses were rewritten to `_` before it. -/
theorem chainStages_no_bad (w : List Char) :
    ∀ c ∈ chainStages w, c ≠ squote ∧ c ≠ lparen ∧ c ≠ rparen := by
  intro c hc
  simp only [chainStages] at hc
  have hmem := List.mem_filter.mp hc
  have hpred := hmem.2
  have hsq : c ≠ squote := by
    intro he
    subst he
    simp at hpred
  refine ⟨hsq, ?_, ?_⟩ <;>
  · rcases mem_expand.mp hmem.1 with ⟨a, ha, hca⟩
    by_cases hq : a = '?'
    · rw [if_pos hq] at hca
      intro he
      subst he
      revert hca
      decide
    · rw [if_neg hq] at hca
      simp only [List.mem_singleton] at hca
      subst hca
      rcases List.mem_map.mp ha with ⟨b, hb, hba⟩
      intro he
      rw [← hba] at he
      by_cases hbc : b = ':'
      · rw [if_pos hbc] at he
        exact absurd he (by decide)
      · rw [if_neg hbc] at he
        rcases List.mem_map.mp hb with ⟨d, hd, hdb⟩
        rw [← hdb] at he
        first
        | exact absurd he (f13_ne_paren d).1
        | exact absurd he (f13_ne_paren d).2

theorem chainStages_id (l : List Char) (h : ∀ c ∈ l, safeChar c) : chainStages l = l := by
  have h1 : l.map (fun c => if c = '<' ∨ c = '>' then '_' else c) = l :=
    map_id_of (fun c hc => by
      rw [if_neg]
      rintro (he | he)
      · exact safe_ne (h c hc) (by decide) he
      · exact safe_ne (h c hc) (by decide) he)
  have h2 : l.filter (fun c => !jsWhitespace c) = l :=
    filter_id_of (fun c hc => by rw [safe_not_ws (h c hc)]; rfl)
  have h3 : l.map (fun c => if c = ',' then '.' else c) = l :=
    map_id_of (fun c hc => if_neg (safe_ne (h c hc) (by decide)))
  have h4 : stripPairs squote l = l :=
    stripPairs_id _ _ (fun c hc => (h c hc).2.1)
  have h5 : stripPairs dquote l = l :=
    stripPairs_id _ _ (fun c hc => safe_ne (h c hc) (by decide))
  have h6 : expand (fun c => if c = '&' then "-and-".toList else [c]) l = l :=
    expand_id (fun c hc => if_neg (safe_ne (h c hc) (by decide)))
  have h7 : expand (fun c => if c = '|' then "-or-".toList else [c]) l = l :=
    expand_id (fun c hc => if_neg (safe_ne (h c hc) (by decide)))
  have h8 : arrayMark l = l :=
    arrayMark_id _ (fun c hc => safe_ne (h c hc) (by decide))
  have h9 : l.map (fun c => if c = lbrace ∨ c = rbrace then '_' else c) = l :=
    map_id_of (fun c hc => by
      rw [if_neg]
      rintro (he | he)
      · exact safe_ne (h c hc) (by decide) he
      · exact safe_ne (h c hc) (by decide) he)
  have h10 : colonGo l .out = l :=
    (colonGo_id l (fun c hc => safe_ne (h c hc) (by decide))).1
  have h11 : expand (fun c => if c = ';' then "--".toList else [c]) l = l :=
    expand_id (fun c hc => if_neg (safe_ne (h c hc) (by decide)))
  have h12 : brGo l .out = l :=
    (brGo_id l (fun c hc => safe_ne (h c hc) (by decide))).1
  have h13 : l.map (fun c =>
      if c = lbrace ∨ c = rbrace ∨ c = lbrack ∨ c = rbrack ∨ c = lparen ∨ c = rparen
      then '_' else c) = l :=
    map_id_of (fun c hc => by
      rw [if_neg]
      rintro (he | he | he | he | he | he)
      · exact safe_ne (h c hc) (by decide) he
      · exact safe_ne (h c hc) (by decide) he
      · exact safe_ne (h c hc) (by decide) he
      · exact safe_ne (h c hc) (by decide) he
      · exact (h c hc).2.2.1 he
      · exact (h c hc).2.2.2 he)
  have h14 : l.map (fun c => if c = ':' then '-' else c) = l :=
    map_id_of (fun c hc => if_neg (safe_ne (h c hc) (by decide)))
  have h15 : expand (fun c => if c = '?' then "..".toList else [c]) l = l :=
    expand_id (fun c hc => if_neg (safe_ne (h c hc) (by decide)))
  have h16 : l.filter (fun c => !(c == squote || c == dquote)) = l :=
    filter_id_of (fun c hc => by
      have hs : (c == squote) = false := by
        simp [beq_iff_eq]
        exact (h c hc).2.1
      have hd : (c == dquote) = false := by
        simp [beq_iff_eq]
        exact safe_ne (h c hc) (by decide)
      rw [hs, hd]
      rfl)
  simp only [chainStages]
  rw [h1, h2, h3, h4, h5, h6, h7, h8, h9, h10, h11, h12, h13, h14, h15, h16]

/-- C4 counterexample: the normalizer is not idempotent.  `%` passes the
rewrite chain untouched and is percent-escaped to `%25`; re-applying the
normalizer escapes the new `%` again, giving `%2525 ≠ %25`.  The same
re-escaping hits every already-normalized name that contains an escape. -/
theorem stringifyName_percent_counterexample :
    stringifyName "%" = "%25" ∧
    stringifyName (stringifyName "%") = "%2525" ∧
    stringifyName (stringifyName "%") ≠ stringifyName "%" :=
  ⟨rfl, rfl, by decide⟩

theorem toListMk (l : List Char) : (String.mk l).toList = l := rfl

/-- C4 amended: `stringifyName` is idempotent exactly on the inputs whose
normalized form needed no percent-escape: if `stringifyName x` contains no
`%`, then applying the function again changes nothing.  (With an escape
present the claim fails, see the counterexample.) -/
theorem stringifyName_idempotent_on_percent_free (x : String)
    (h : '%' ∉ (stringifyName x).toList) :
    stringifyName (stringifyName x) = stringifyName x := by
  have hsx0 : stringifyName x =
      String.mk (encodeURIComponentChars (chainStages (stripImport (stripPromise x.toList)))) :=
    rfl
  rw [hsx0, toListMk] at h
  obtain ⟨hunres, henc⟩ := encode_percent_free h
  have hbad := chainStages_no_bad (stripImport (stripPromise x.toList))
  have hsafe : ∀ c ∈ chainStages (stripImport (stripPromise x.toList)), safeChar c :=
    fun c hc => ⟨hunres c hc, (hbad c hc).1, (hbad c hc).2.1, (hbad c hc).2.2⟩
  rw [hsx0, henc]
  have hsx2 : stringifyName (String.mk (chainStages (stripImport (stripPromise x.toList)))) =
      String.mk (encodeURIComponentChars (chainStages (stripImport (stripPromise
        (String.mk (chainStages (stripImport (stripPromise x.toList)))).toList)))) := rfl
  rw [hsx2, toListMk, stripPromise_id _ hsafe,
    stripImport_id _ (fun c hc => (hsafe c hc).2.2.1),
    chainStages_id _ hsafe, henc]

/-- C4 witness: a plain alphabetic name normalizes percent-free and is a
fixed point of a second application. -/
theorem stringifyName_idempotent_on_percent_free_witness :
    stringifyName (stringifyName "Node") = stringifyName "Node" :=
  stringifyName_idempotent_on_percent_free "Node" (by decide)

end Toag
